import Mathlib

/-!
Shallow embedding of the proglog segment storage engine
(`internal/log`: store, index, segment) and proofs of the
specification claims about it.

Bytes are modelled as natural numbers, files and mapped regions as
`List Nat`, and Go's fixed-width unsigned integers as `Nat` with
explicit `% 2^64` / `% 2^32` where the source wraps.
-/

namespace ProgLog

/-- Errors surfaced by the embedded operations.  The Go source signals
both "not found / out of range" and "index full" with `io.EOF`. -/
inductive Err where
  | eof : Err
deriving DecidableEq

/-- Read `n` bytes of `l` starting at position `p` (Go slice `l[p : p+n]`). -/
def readAt (l : List Nat) (p n : Nat) : List Nat := (l.drop p).take n

/-- Overwrite the bytes of `l` at positions `[p, p + d.length)` with `d`,
the semantics of an in-place write into a mapped region. -/
def writeAt (l : List Nat) (p : Nat) (d : List Nat) : List Nat :=
  l.take p ++ d ++ l.drop (p + d.length)

/-- Big-endian 4-byte encoding, as `binary.BigEndian.PutUint32`. -/
def enc4 (v : Nat) : List Nat :=
  [v / 2 ^ 24 % 256, v / 2 ^ 16 % 256, v / 2 ^ 8 % 256, v % 256]

/-- Big-endian 8-byte encoding, as `binary.BigEndian.PutUint64`. -/
def enc8 (v : Nat) : List Nat :=
  [v / 2 ^ 56 % 256, v / 2 ^ 48 % 256, v / 2 ^ 40 % 256, v / 2 ^ 32 % 256,
   v / 2 ^ 24 % 256, v / 2 ^ 16 % 256, v / 2 ^ 8 % 256, v % 256]

/-- Big-endian 4-byte decoding, as `binary.BigEndian.Uint32`. -/
def dec4 (l : List Nat) : Nat :=
  l.getD 0 0 * 2 ^ 24 + l.getD 1 0 * 2 ^ 16 + l.getD 2 0 * 2 ^ 8 + l.getD 3 0

/-- Big-endian 8-byte decoding, as `binary.BigEndian.Uint64`. -/
def dec8 (l : List Nat) : Nat :=
  l.getD 0 0 * 2 ^ 56 + l.getD 1 0 * 2 ^ 48 + l.getD 2 0 * 2 ^ 40 + l.getD 3 0 * 2 ^ 32 +
  l.getD 4 0 * 2 ^ 24 + l.getD 5 0 * 2 ^ 16 + l.getD 6 0 * 2 ^ 8 + l.getD 7 0

/-- Go's conversion of a `uint64` value (a natural below `2^64`) to `int64`. -/
def toInt64 (u : Nat) : Int :=
  if u < 2 ^ 63 then (u : Int) else (u : Int) - 2 ^ 64

/-- Go's `uint64` subtraction `a - b` (two's-complement wraparound),
for `b < 2^64`. -/
def sub64 (a b : Nat) : Nat := (a + 2 ^ 64 - b % 2 ^ 64) % 2 ^ 64

/-! ### Protocol-buffer wire model for `api.Record`

`message Record { bytes value = 1; uint64 offset = 2; }`-/

/-- One step of base-128 varint encoding with explicit fuel; the fuel
is always at least the value, which makes the fallback unreachable. -/
def varintEncAux : Nat → Nat → List Nat
  | 0, n => [n % 128]
  | fuel + 1, n => if n < 128 then [n] else (n % 128 + 128) :: varintEncAux fuel (n / 128)

/-- Base-128 varint encoding (least-significant group first, as in
protobuf wire format). -/
def varintEnc (n : Nat) : List Nat := varintEncAux n n

/-- Base-128 varint decoding; returns the value and the remaining bytes. -/
def varintDec : List Nat → Option (Nat × List Nat)
  | [] => none
  | b :: rest =>
    if b < 128 then some (b, rest)
    else
      match varintDec rest with
      | none => none
      | some (v, r) => some (b - 128 + 128 * v, r)

/-- The record message of `api/v1/log.proto`: an opaque byte payload and
a `uint64` logical offset. -/
structure Record where
  Value : List Nat
  Offset : Nat
deriving DecidableEq

/-- Wire encoding of field 1 (`bytes value`): omitted when empty,
otherwise tag byte `0x0A`, varint length, payload bytes. -/
def valuePart (p : List Nat) : List Nat :=
  if p = [] then [] else 10 :: (varintEnc p.length ++ p)

/-- Wire encoding of field 2 (`uint64 offset`): omitted when zero,
otherwise tag byte `0x10` and the varint value. -/
def offsetPart (off : Nat) : List Nat :=
  if off = 0 then [] else 16 :: varintEnc off

/-- Model of `proto.Marshal` on a `Record`, in ascending field order. -/
def pMarshal (r : Record) : List Nat := valuePart r.Value ++ offsetPart r.Offset

/-- The field-consuming loop of `proto.Unmarshal` for the `Record`
message: repeatedly decode a tag varint, then dispatch on wire type,
last value wins, unknown fields skipped.  Fuel bounds the number of
iterations; each iteration consumes at least one byte, so fuel
`bs.length + 1` always suffices. -/
def pUnmarshalLoop : Nat → List Nat → List Nat → Nat → Except Err Record
  | 0, _, _, _ => .error .eof
  | fuel + 1, bs, val, off =>
    if bs = [] then .ok ⟨val, off⟩
    else
      match varintDec bs with
      | none => .error .eof
      | some (tag, rest) =>
        if tag % 8 = 0 then
          match varintDec rest with
          | none => .error .eof
          | some (v, rest2) =>
            if tag / 8 = 2 then pUnmarshalLoop fuel rest2 val (v % 2 ^ 64)
            else pUnmarshalLoop fuel rest2 val off
        else if tag % 8 = 2 then
          match varintDec rest with
          | none => .error .eof
          | some (len, rest2) =>
            if rest2.length < len then .error .eof
            else if tag / 8 = 1 then
              pUnmarshalLoop fuel (rest2.drop len) (rest2.take len) off
            else pUnmarshalLoop fuel (rest2.drop len) val off
        else .error .eof

/-- Model of `proto.Unmarshal` into a fresh `&api.Record{}` (all fields at their
proto3 defaults). -/
def pUnmarshal (bs : List Nat) : Except Err Record :=
  pUnmarshalLoop (bs.length + 1) bs [] 0

/-! ### Store (`internal/log/store.go`) -/

/-- Segment configuration (`internal/log/config.go`). -/
structure Config where
  MaxStoreBytes : Nat
  MaxIndexBytes : Nat
  InitialOffset : Nat
deriving DecidableEq

/-- The store: an append-only byte file plus the tracked `size`.
`bytes` is the file content including data still in the buffered
writer (reads flush the buffer first, so the distinction is
unobservable here). -/
structure Store where
  bytes : List Nat
  size : Nat
deriving DecidableEq

/-- The function `newStore`: recover `size` from the file's current length. -/
def newStore (file : List Nat) : Store := { bytes := file, size := file.length }

/-- Method `store.Append`: write the 8-byte big-endian length of `p` followed by
`p`; return bytes written (`8 + len p` as `uint64`), the record's start
position, and the updated store. -/
def Store.Append (s : Store) (p : List Nat) : Nat × Nat × Store :=
  ((p.length + 8) % 2 ^ 64, s.size,
   { bytes := s.bytes ++ enc8 p.length ++ p,
     size := (s.size + (p.length + 8) % 2 ^ 64) % 2 ^ 64 })

/-- Method `store.Read`: read the 8-byte length at `pos`, then that many bytes
at `pos + 8`; `ReadAt` fails when the file is too short to fill the
requested buffer. -/
def Store.Read (s : Store) (pos : Nat) : Except Err (List Nat) :=
  if s.bytes.length < pos + 8 then .error .eof
  else
    let len := dec8 (readAt s.bytes pos 8)
    if s.bytes.length < pos + 8 + len then .error .eof
    else .ok (readAt s.bytes (pos + 8) len)

/-! ### Index (the memory-mapped offset table) -/

/-- The index: the memory-mapped region (fixed length, preallocated to
`MaxIndexBytes`) and the count of bytes actually written. -/
structure Index where
  mmap : List Nat
  size : Nat
deriving DecidableEq

/-- The function `newIndex`: recover `size` from the file length, truncate the file
to `MaxIndexBytes` (extending with zero bytes or cutting), and map it. -/
def newIndex (file : List Nat) (c : Config) : Index :=
  { mmap := file.take c.MaxIndexBytes ++ List.replicate (c.MaxIndexBytes - file.length) 0,
    size := file.length }

/-- The entry number an `index.Read` argument resolves to: `-1` means
the last entry (`uint32(size/entWidth - 1)` in `uint64` arithmetic),
any other `int64` is converted to `uint32` by truncation. -/
def indexOut (i : Index) (inp : Int) : Nat :=
  if inp = -1 then (i.size / 12 + 2 ^ 64 - 1) % 2 ^ 64 % 2 ^ 32
  else (inp % 2 ^ 32).toNat

/-- Method `index.Read`: translate the argument (`-1` means "last entry",
other values are truncated to `uint32` entry numbers), bounds-check
`out * entWidth` against `size`, and decode the 12-byte entry. -/
def Index.Read (i : Index) (inp : Int) : Except Err (Nat × Nat) :=
  if i.size = 0 then .error .eof
  else if i.size < indexOut i inp * 12 + 12 then .error .eof
  else .ok (dec4 (readAt i.mmap (indexOut i inp * 12) 4),
            dec8 (readAt i.mmap (indexOut i inp * 12 + 4) 8))

/-- Method `index.Write`: reject when one more 12-byte entry would not fit in
the mapped region; otherwise encode offset and position at
`mmap[size .. size+12]` and advance `size`.  The second component is the
post-call index (unchanged on failure, as the Go method returns before
mutating anything). -/
def Index.Write (i : Index) (off pos : Nat) : Except Err Unit × Index :=
  if i.mmap.length < i.size + 12 then (.error .eof, i)
  else
    (.ok (),
     { mmap := writeAt i.mmap i.size (enc4 off ++ enc8 pos),
       size := (i.size + 12) % 2 ^ 64 })

/-! ### Segment (the unnamed segment source file) -/

/-- The segment: one store, one index, the immutable base offset, the
next offset to assign, and the configuration. -/
structure Segment where
  store : Store
  index : Index
  baseOffset : Nat
  nextOffset : Nat
  config : Config
deriving DecidableEq

/-- The function `newSegment`: build store and index over the given file contents,
then set `nextOffset` from the index's last entry (`Read (-1)`):
`baseOffset` when the read fails, `baseOffset + off + 1` otherwise. -/
def newSegment (storeFile indexFile : List Nat) (baseOffset : Nat) (c : Config) : Segment :=
  { store := newStore storeFile,
    index := newIndex indexFile c,
    baseOffset := baseOffset,
    nextOffset :=
      match (newIndex indexFile c).Read (-1) with
      | .error _ => baseOffset
      | .ok r => (baseOffset + r.1 + 1) % 2 ^ 64,
    config := c }

/-- Method `segment.Append`: stamp the record with `nextOffset`, marshal it,
append to the store, then write the index entry
`(uint32(nextOffset - baseOffset), pos)`; only after both writes
succeed is `nextOffset` incremented.  The second component is the
post-call segment (on index failure the store bytes are already
written but `nextOffset` is untouched). -/
def Segment.Append (s : Segment) (record : Record) : Except Err Nat × Segment :=
  match s.index.Write (sub64 s.nextOffset s.baseOffset % 2 ^ 32)
      (s.store.Append (pMarshal { record with Offset := s.nextOffset })).2.1 with
  | (.error e, _) =>
    (.error e,
     { s with store := (s.store.Append (pMarshal { record with Offset := s.nextOffset })).2.2 })
  | (.ok _, ix) =>
    (.ok s.nextOffset,
     { s with store := (s.store.Append (pMarshal { record with Offset := s.nextOffset })).2.2,
              index := ix,
              nextOffset := (s.nextOffset + 1) % 2 ^ 64 })

/-- Method `segment.Read`: translate the absolute offset to the index-relative
one via `uint64` subtraction cast to `int64`, resolve the position,
read the store bytes and unmarshal them. -/
def Segment.Read (s : Segment) (off : Nat) : Except Err Record :=
  match s.index.Read (toInt64 (sub64 off s.baseOffset)) with
  | .error e => .error e
  | .ok r =>
    match s.store.Read r.2 with
    | .error e => .error e
    | .ok p => pUnmarshal p

/-- Method `segment.IsMaxed`, exactly as written in the source: both the store
size and the index size are compared against `MaxStoreBytes`. -/
def Segment.IsMaxed (s : Segment) : Bool :=
  decide (s.store.size ≥ s.config.MaxStoreBytes) ||
  decide (s.index.size ≥ s.config.MaxStoreBytes)

/-! ### Reachable segment states and the append/read round trip -/

/-- Driver: append a list of payloads in order (each wrapped in a fresh
record; `Append` overwrites the offset field), collecting the results. -/
def Segment.AppendAll (s : Segment) : List (List Nat) → Segment × List (Except Err Nat)
  | [] => (s, [])
  | p :: rest =>
    (((s.Append ⟨p, 0⟩).2.AppendAll rest).1,
     (s.Append ⟨p, 0⟩).1 :: ((s.Append ⟨p, 0⟩).2.AppendAll rest).2)

/-- Total number of store bytes produced by appending the given
payloads starting at logical offset `off`: each record contributes its
8-byte length prefix plus its marshalled bytes. -/
def framesLen (off : Nat) : List (List Nat) → Nat
  | [] => 0
  | p :: rest => (8 + (pMarshal ⟨p, off⟩).length) + framesLen (off + 1) rest

/-- Invariant of a segment reached by appending the payloads `recs` to
a fresh segment with base offset `b` and configuration `c`. -/
structure SegInv (s : Segment) (b : Nat) (c : Config) (recs : List (List Nat)) : Prop where
  base : s.baseOffset = b
  cfg : s.config = c
  next : s.nextOffset = b + recs.length
  isize : s.index.size = 12 * recs.length
  ilen : s.index.mmap.length = c.MaxIndexBytes
  ssize : s.store.size = s.store.bytes.length
  sblen : s.store.bytes.length = framesLen b recs
  reads : ∀ i : Nat, i < recs.length →
    s.Read (b + i) = .ok ⟨recs.getD i [], b + i⟩

/-! ### Encoding and varint lemmas -/

theorem length_enc4 (v : Nat) : (enc4 v).length = 4 := rfl

theorem length_enc8 (v : Nat) : (enc8 v).length = 8 := rfl

theorem dec4_enc4 (v : Nat) : dec4 (enc4 v) = v % 2 ^ 32 := by
  simp only [dec4, enc4, List.getD_cons_zero, List.getD_cons_succ]
  omega

theorem dec8_enc8 (v : Nat) : dec8 (enc8 v) = v % 2 ^ 64 := by
  simp only [dec8, enc8, List.getD_cons_zero, List.getD_cons_succ]
  omega

theorem varintDec_length : ∀ (bs : List Nat) (v : Nat) (r : List Nat),
    varintDec bs = some (v, r) → r.length < bs.length := by
  intro bs
  induction bs with
  | nil => intro v r h; simp [varintDec] at h
  | cons b rest ih =>
    intro v r h
    simp only [varintDec] at h
    split at h
    · cases h
      simp
    · cases hrec : varintDec rest with
      | none => rw [hrec] at h; cases h
      | some p =>
        rw [hrec] at h
        cases h
        have := ih p.1 p.2 (by rw [hrec])
        simp only [List.length_cons]
        omega

theorem varintEncAux_ne_nil (fuel n : Nat) : varintEncAux fuel n ≠ [] := by
  cases fuel with
  | zero => simp [varintEncAux]
  | succ f =>
    simp only [varintEncAux]
    split <;> simp

theorem varintEnc_ne_nil (n : Nat) : varintEnc n ≠ [] := varintEncAux_ne_nil n n

theorem varintDec_encAux (fuel n : Nat) (rest : List Nat) (h : n ≤ fuel) :
    varintDec (varintEncAux fuel n ++ rest) = some (n, rest) := by
  induction fuel generalizing n with
  | zero =>
    have hn : n = 0 := Nat.le_zero.mp h
    subst hn
    simp [varintEncAux, varintDec]
  | succ f ih =>
    simp only [varintEncAux]
    split
    · simp only [List.cons_append, List.nil_append, varintDec]
      rw [if_pos (by assumption)]
      simp
    · rename_i hge
      simp only [List.cons_append, varintDec, List.append_eq]
      rw [if_neg (by omega)]
      rw [ih (n / 128) (by omega)]
      simp
      omega

theorem varintDec_enc (n : Nat) (rest : List Nat) :
    varintDec (varintEnc n ++ rest) = some (n, rest) :=
  varintDec_encAux n n rest (Nat.le_refl n)

theorem varintDec_enc' (n : Nat) : varintDec (varintEnc n) = some (n, []) := by
  have := varintDec_enc n []
  simpa using this

/-- One controlled unfolding of the unmarshal loop at nonzero fuel. -/
theorem pUnmarshalLoop_step (f : Nat) (hf : f ≠ 0) (bs val : List Nat) (off : Nat) :
    pUnmarshalLoop f bs val off =
      if bs = [] then .ok ⟨val, off⟩
      else
        match varintDec bs with
        | none => .error .eof
        | some (tag, rest) =>
          if tag % 8 = 0 then
            match varintDec rest with
            | none => .error .eof
            | some (v, rest2) =>
              if tag / 8 = 2 then pUnmarshalLoop (f - 1) rest2 val (v % 2 ^ 64)
              else pUnmarshalLoop (f - 1) rest2 val off
          else if tag % 8 = 2 then
            match varintDec rest with
            | none => .error .eof
            | some (len, rest2) =>
              if rest2.length < len then .error .eof
              else if tag / 8 = 1 then
                pUnmarshalLoop (f - 1) (rest2.drop len) (rest2.take len) off
              else pUnmarshalLoop (f - 1) (rest2.drop len) val off
          else .error .eof := by
  obtain ⟨g, rfl⟩ : ∃ g, f = g + 1 := ⟨f - 1, by omega⟩
  rfl

theorem pUnmarshalLoop_offsetPart (f : Nat) (hf : 2 ≤ f) (val : List Nat) (off : Nat)
    (hoff : off < 2 ^ 64) :
    pUnmarshalLoop f (offsetPart off) val 0 = .ok ⟨val, off⟩ := by
  by_cases h0 : off = 0
  · subst h0
    rw [pUnmarshalLoop_step f (by omega)]
    simp [offsetPart]
  · have htag : varintDec (16 :: varintEnc off) = some (16, varintEnc off) := by
      simp [varintDec]
    rw [pUnmarshalLoop_step f (by omega)]
    simp only [offsetPart, if_neg h0, htag, varintDec_enc']
    rw [if_neg (List.cons_ne_nil 16 _)]
    norm_num
    rw [pUnmarshalLoop_step (f - 1) (by omega)]
    simp
    omega

theorem pUnmarshal_pMarshal (p : List Nat) (off : Nat) (hoff : off < 2 ^ 64) :
    pUnmarshal (pMarshal ⟨p, off⟩) = .ok ⟨p, off⟩ := by
  have hvlen : ∀ n : Nat, 1 ≤ (varintEnc n).length := by
    intro n
    exact List.length_pos.mpr (varintEnc_ne_nil n)
  by_cases hp : p = []
  · subst hp
    by_cases h0 : off = 0
    · subst h0; rfl
    · unfold pUnmarshal pMarshal
      simp only [valuePart, if_pos rfl, List.nil_append]
      refine pUnmarshalLoop_offsetPart ((offsetPart off).length + 1) ?_ [] off hoff
      have := hvlen off
      simp only [offsetPart, if_neg h0, List.length_cons]
      omega
  · unfold pUnmarshal pMarshal
    simp only [valuePart, if_neg hp]
    have hassoc : (10 :: (varintEnc p.length ++ p)) ++ offsetPart off
        = 10 :: (varintEnc p.length ++ (p ++ offsetPart off)) := by
      simp
    rw [hassoc]
    have htag : varintDec (10 :: (varintEnc p.length ++ (p ++ offsetPart off)))
        = some (10, varintEnc p.length ++ (p ++ offsetPart off)) := by
      simp [varintDec]
    set L := (10 :: (varintEnc p.length ++ (p ++ offsetPart off))).length with hL
    rw [pUnmarshalLoop_step (L + 1) (by omega)]
    simp only [htag, varintDec_enc p.length (p ++ offsetPart off)]
    rw [if_neg (List.cons_ne_nil 10 _)]
    have hnn : ¬ (p ++ offsetPart off).length < p.length := by simp
    norm_num [hnn]
    refine pUnmarshalLoop_offsetPart L ?_ p off hoff
    have h1 := hvlen p.length
    have hple : 1 ≤ p.length := List.length_pos.mpr hp
    simp only [hL, List.length_cons, List.length_append]
    omega

/-! ### Byte-region lemmas -/

theorem readAt_append (l m : List Nat) (p n : Nat) (h : p + n ≤ l.length) :
    readAt (l ++ m) p n = readAt l p n := by
  unfold readAt
  rw [List.drop_append_eq_append_drop, List.take_append_eq_append_take]
  have h1 : p - l.length = 0 := by omega
  have h2 : n - (l.drop p).length = 0 := by
    rw [List.length_drop]
    omega
  rw [h1, h2]
  simp

theorem readAt_append_right (l m : List Nat) (k n : Nat) :
    readAt (l ++ m) (l.length + k) n = readAt m k n := by
  unfold readAt
  rw [List.drop_append_eq_append_drop]
  have h1 : l.drop (l.length + k) = [] := List.drop_eq_nil_of_le (by omega)
  have h2 : l.length + k - l.length = k := by omega
  rw [h1, h2]
  simp

theorem writeAt_length (l d : List Nat) (p : Nat) (h : p + d.length ≤ l.length) :
    (writeAt l p d).length = l.length := by
  unfold writeAt
  simp only [List.length_append, List.length_take, List.length_drop]
  omega

theorem take_drop_take (l : List Nat) (p n a : Nat) (h : p + n ≤ a) :
    ((l.take a).drop p).take n = (l.drop p).take n := by
  obtain ⟨q, rfl⟩ : ∃ q, a = p + q := ⟨a - p, by omega⟩
  rw [List.drop_take, List.take_take]
  congr 1
  omega

theorem readAt_writeAt_before (l d : List Nat) (p n a : Nat)
    (hpn : p + n ≤ a) (ha : a ≤ l.length) :
    readAt (writeAt l a d) p n = readAt l p n := by
  unfold writeAt
  rw [List.append_assoc]
  rw [readAt_append (l.take a) _ p n (by rw [List.length_take]; omega)]
  unfold readAt
  exact take_drop_take l p n a hpn

theorem readAt_writeAt_at (l d : List Nat) (a k n : Nat)
    (hk : k + n ≤ d.length) (hlen : a + d.length ≤ l.length) :
    readAt (writeAt l a d) (a + k) n = (d.drop k).take n := by
  unfold writeAt
  rw [List.append_assoc]
  have hta : (l.take a).length = a := by rw [List.length_take]; omega
  have := readAt_append_right (l.take a) (d ++ l.drop (a + d.length)) k n
  rw [hta] at this
  rw [this]
  rw [readAt_append d _ k n hk]
  rfl

theorem framesLen_append (off : Nat) (qs rs : List (List Nat)) :
    framesLen off (qs ++ rs) = framesLen off qs + framesLen (off + qs.length) rs := by
  induction qs generalizing off with
  | nil => simp [framesLen]
  | cons q qt ih =>
    simp only [List.cons_append, framesLen, List.append_eq, List.length_cons]
    rw [ih (off + 1)]
    have e : off + 1 + qt.length = off + (qt.length + 1) := by omega
    rw [e]
    omega

theorem segInv_fresh (b : Nat) (c : Config) : SegInv (newSegment [] [] b c) b c [] := by
  refine ⟨rfl, rfl, rfl, rfl, ?_, rfl, rfl, ?_⟩
  · show ((List.take c.MaxIndexBytes []) ++ List.replicate (c.MaxIndexBytes - 0) 0).length
      = c.MaxIndexBytes
    simp
  · intro i hi
    exact absurd hi (Nat.not_lt_zero i)

theorem readAt_writeAt_first (l d1 d2 : List Nat) (a : Nat)
    (hlen : a + (d1 ++ d2).length ≤ l.length) :
    readAt (writeAt l a (d1 ++ d2)) a d1.length = d1 := by
  have h := readAt_writeAt_at l (d1 ++ d2) a 0 d1.length (by simp) hlen
  rw [Nat.add_zero] at h
  rw [h, List.drop_zero, List.take_left]

theorem readAt_writeAt_second (l d1 d2 : List Nat) (a : Nat)
    (hlen : a + (d1 ++ d2).length ≤ l.length) :
    readAt (writeAt l a (d1 ++ d2)) (a + d1.length) d2.length = d2 := by
  have h := readAt_writeAt_at l (d1 ++ d2) a d1.length d2.length (by simp) hlen
  rw [h, List.drop_left, List.take_length]

theorem readAt_append_start (l m : List Nat) (n : Nat) :
    readAt (l ++ m) l.length n = m.take n := by
  have h := readAt_append_right l m 0 n
  rw [Nat.add_zero] at h
  rw [h]
  rfl

/-! ### Claims about store and index -/

/-- C6: a successful `store.Append p` on a store of size `S` returns
`bytesWritten = 8 + len p` and `position = S`, leaves the size at
`S + 8 + len p`, and appends exactly the 8-byte big-endian length of
`p` followed by `p` to the file. -/
theorem store_append_spec (s : Store) (p : List Nat)
    (hp : p.length + 8 < 2 ^ 64) (hsz : s.size + 8 + p.length < 2 ^ 64) :
    s.Append p = (8 + p.length, s.size,
      { bytes := s.bytes ++ enc8 p.length ++ p, size := s.size + 8 + p.length }) := by
  unfold Store.Append
  have h1 : (p.length + 8) % 2 ^ 64 = p.length + 8 := by omega
  rw [h1]
  have h2 : (s.size + (p.length + 8)) % 2 ^ 64 = s.size + 8 + p.length := by omega
  rw [h2]
  rw [Nat.add_comm p.length 8]

theorem store_append_spec_witness :
    (7 : Nat) + 8 < 2 ^ 64 ∧ (3 : Nat) + 8 + 7 < 2 ^ 64 ∧
    Store.Append ⟨[1, 2, 3], 3⟩ [4, 5, 6, 7, 8, 9, 10]
      = (15, 3, { bytes := [1, 2, 3] ++ enc8 7 ++ [4, 5, 6, 7, 8, 9, 10], size := 18 }) :=
  ⟨by decide, by decide,
   store_append_spec ⟨[1, 2, 3], 3⟩ [4, 5, 6, 7, 8, 9, 10] (by decide) (by decide)⟩

/-- C7: reading any entry of an empty index fails, for every argument,
including `0` and `-1`; no fabricated entry is returned. -/
theorem index_read_empty (i : Index) (inp : Int) (h : i.size = 0) :
    i.Read inp = .error .eof := by
  unfold Index.Read
  rw [if_pos h]

theorem index_read_empty_witness :
    (newIndex [] ⟨1024, 24, 0⟩).size = 0 ∧
    (newIndex [] ⟨1024, 24, 0⟩).Read 0 = .error .eof ∧
    (newIndex [] ⟨1024, 24, 0⟩).Read (-1) = .error .eof :=
  ⟨rfl, index_read_empty _ 0 rfl, index_read_empty _ (-1) rfl⟩

/-- Shared helper: the sentinel `-1` resolves to entry number
`(K - 1) mod 2^32` on an index holding `K ≥ 1` complete entries. -/
theorem indexOut_neg_one (i : Index) (K : Nat) (hsz : i.size = 12 * K) (hK : 1 ≤ K)
    (h64 : i.size < 2 ^ 64) : indexOut i (-1) = (K - 1) % 2 ^ 32 := by
  unfold indexOut
  rw [if_pos rfl, hsz]
  have h12 : 12 * K / 12 = K := by omega
  rw [h12]
  have e1 : (K + 2 ^ 64 - 1) % 2 ^ 64 = K - 1 := by omega
  rw [e1]

/-- Shared helper: a non-negative argument resolves to its value
truncated to `uint32`. -/
theorem indexOut_nonneg (i : Index) (n : Nat) : indexOut i (n : Int) = n % 2 ^ 32 := by
  unfold indexOut
  rw [if_neg (by omega)]
  omega

/-- Shared helper: on an index holding `K ≥ 1` complete entries, the
sentinel read `Read (-1)` resolves to the same entry number, and hence
the same result, as `Read (K - 1)`. -/
theorem index_read_neg_one_eq (i : Index) (K : Nat) (hsz : i.size = 12 * K)
    (hK : 1 ≤ K) (h64 : i.size < 2 ^ 64) :
    i.Read (-1) = i.Read ((K - 1 : Nat) : Int) := by
  unfold Index.Read
  rw [indexOut_neg_one i K hsz hK h64, indexOut_nonneg i (K - 1)]

/-- C8: on an index holding `K ≥ 1` entries, `Read (-1)` returns the
same (relative offset, position) pair as `Read (K - 1)`. -/
theorem index_read_last_entry (i : Index) (K : Nat) (hsz : i.size = 12 * K)
    (hK : 1 ≤ K) (h64 : i.size < 2 ^ 64) :
    i.Read (-1) = i.Read ((K - 1 : Nat) : Int) :=
  index_read_neg_one_eq i K hsz hK h64

theorem index_read_last_entry_witness :
    (⟨enc4 0 ++ enc8 5 ++ enc4 1 ++ enc8 19, 24⟩ : Index).size = 12 * 2 ∧
    (⟨enc4 0 ++ enc8 5 ++ enc4 1 ++ enc8 19, 24⟩ : Index).Read (-1)
      = (⟨enc4 0 ++ enc8 5 ++ enc4 1 ++ enc8 19, 24⟩ : Index).Read ((2 - 1 : Nat) : Int) :=
  ⟨by decide, index_read_last_entry _ 2 (by decide) (by decide) (by decide)⟩

/-- C10: a non-negative argument is truncated to `uint32`: whenever
`(in mod 2^32) < K` on an index with `K` complete entries, `Read in`
succeeds and returns the decoded entry number `in mod 2^32` — the same
result as `Read (in mod 2^32)` — even when `in` itself is at least `K`. -/
theorem index_read_uint32_truncation (i : Index) (K : Nat) (inp : Int)
    (hsz : i.size = 12 * K) (h64 : i.size < 2 ^ 64)
    (h0 : 0 ≤ inp) (h63 : inp < 2 ^ 63)
    (hmod : inp.toNat % 2 ^ 32 < K) :
    i.Read inp = .ok (dec4 (readAt i.mmap (inp.toNat % 2 ^ 32 * 12) 4),
                      dec8 (readAt i.mmap (inp.toNat % 2 ^ 32 * 12 + 4) 8))
    ∧ i.Read inp = i.Read ((inp.toNat % 2 ^ 32 : Nat) : Int) := by
  obtain ⟨n, rfl⟩ := Int.eq_ofNat_of_zero_le h0
  have hn : (n : Int).toNat = n := rfl
  rw [hn] at hmod ⊢
  have hmm : n % 2 ^ 32 % 2 ^ 32 = n % 2 ^ 32 := by omega
  constructor
  · unfold Index.Read
    rw [indexOut_nonneg i n]
    rw [if_neg (by omega), if_neg (by omega)]
  · unfold Index.Read
    rw [indexOut_nonneg i n, indexOut_nonneg i (n % 2 ^ 32), hmm]

theorem index_read_uint32_truncation_witness :
    (⟨enc4 0 ++ enc8 5 ++ enc4 1 ++ enc8 19, 24⟩ : Index).Read (2 ^ 32) = .ok (0, 5) := by
  have h := index_read_uint32_truncation ⟨enc4 0 ++ enc8 5 ++ enc4 1 ++ enc8 19, 24⟩ 2 (2 ^ 32)
    (by decide) (by decide) (by decide) (by decide) (by decide)
  rw [h.1]
  rfl

/-- C5: `index.Write` fails exactly when one more 12-byte entry would
exceed the mapped region (`len mmap < size + 12`); on failure the whole
index — size field and previously written entries — is unchanged, and
on success `size` grows by exactly 12. -/
theorem index_write_spec (i : Index) (off pos : Nat) (h64 : i.size + 12 < 2 ^ 64) :
    ((i.Write off pos).1 = .error .eof ↔ i.mmap.length < i.size + 12) ∧
    ((i.Write off pos).1 = .error .eof → (i.Write off pos).2 = i) ∧
    ((i.Write off pos).1 = .ok () → (i.Write off pos).2.size = i.size + 12) := by
  unfold Index.Write
  by_cases hc : i.mmap.length < i.size + 12
  · rw [if_pos hc]
    refine ⟨⟨fun _ => hc, fun _ => rfl⟩, fun _ => rfl, fun h => by simp at h⟩
  · rw [if_neg hc]
    refine ⟨⟨fun h => by simp at h, fun h => absurd h hc⟩, fun h => by simp at h, fun _ => ?_⟩
    show (i.size + 12) % 2 ^ 64 = i.size + 12
    omega

theorem index_write_spec_witness :
    ((⟨List.replicate 12 0, 0⟩ : Index).Write 0 5).1 = .ok ()
    ∧ ((⟨List.replicate 12 0, 0⟩ : Index).Write 0 5).2.size = 0 + 12
    ∧ ((⟨List.replicate 12 0, 12⟩ : Index).Write 1 9).1 = .error .eof
    ∧ ((⟨List.replicate 12 0, 12⟩ : Index).Write 1 9).2 = ⟨List.replicate 12 0, 12⟩ := by
  have h1 := index_write_spec ⟨List.replicate 12 0, 0⟩ 0 5 (by decide)
  have h2 := index_write_spec ⟨List.replicate 12 0, 12⟩ 1 9 (by decide)
  have e1 : ((⟨List.replicate 12 0, 0⟩ : Index).Write 0 5).1 = .ok () := rfl
  have e2 : ((⟨List.replicate 12 0, 12⟩ : Index).Write 1 9).1 = .error .eof := rfl
  exact ⟨e1, h1.2.2 e1, e2, h2.2.1 e2⟩

/-! ### Claims about the segment -/

/-- C2 (divergence witness): the code of `IsMaxed` compares the index
size against `MaxStoreBytes`, not `MaxIndexBytes`.  At the spec's own
example configuration (max store 1024, max index 120) a segment whose
index is exactly full (120 bytes) and whose store holds only 50 bytes
reports `IsMaxed = false`, although the index has reached its own
configured ceiling. -/
theorem isMaxed_ignores_index_ceiling :
    (Segment.IsMaxed ⟨⟨[], 50⟩, ⟨List.replicate 120 0, 120⟩, 0, 10, ⟨1024, 120, 0⟩⟩ = false)
    ∧ (⟨⟨[], 50⟩, ⟨List.replicate 120 0, 120⟩, 0, 10, ⟨1024, 120, 0⟩⟩ : Segment).index.size
        ≥ (⟨1024, 120, 0⟩ : Config).MaxIndexBytes
    ∧ (⟨⟨[], 50⟩, ⟨List.replicate 120 0, 120⟩, 0, 10, ⟨1024, 120, 0⟩⟩ : Segment).store.size
        < (⟨1024, 120, 0⟩ : Config).MaxStoreBytes :=
  ⟨rfl, by decide, by decide⟩

/-- C4: a successful `segment.Append` returns the pre-call `nextOffset`
and advances it by exactly one; a failed call leaves `nextOffset`
unchanged. -/
theorem segment_append_nextOffset (s : Segment) (r : Record)
    (h : s.nextOffset + 1 < 2 ^ 64) :
    (∀ off, (s.Append r).1 = .ok off →
        off = s.nextOffset ∧ (s.Append r).2.nextOffset = s.nextOffset + 1) ∧
    (∀ e, (s.Append r).1 = .error e → (s.Append r).2.nextOffset = s.nextOffset) := by
  unfold Segment.Append Index.Write
  by_cases hc : s.index.mmap.length < s.index.size + 12
  · rw [if_pos hc]
    exact ⟨fun off hoff => by simp at hoff, fun e _ => rfl⟩
  · rw [if_neg hc]
    refine ⟨fun off hoff => ⟨?_, ?_⟩, fun e he => by simp at he⟩
    · have h2 : Except.ok (ε := Err) s.nextOffset = .ok off := hoff
      simp at h2
      omega
    · show (s.nextOffset + 1) % 2 ^ 64 = s.nextOffset + 1
      omega

theorem segment_append_nextOffset_witness :
    ((newSegment [] [] 3 ⟨1024, 24, 0⟩).Append ⟨[7], 0⟩).1 = .ok 3
    ∧ ((newSegment [] [] 3 ⟨1024, 24, 0⟩).Append ⟨[7], 0⟩).2.nextOffset = 3 + 1 := by
  have h := segment_append_nextOffset (newSegment [] [] 3 ⟨1024, 24, 0⟩) ⟨[7], 0⟩ (by decide)
  have e1 : ((newSegment [] [] 3 ⟨1024, 24, 0⟩).Append ⟨[7], 0⟩).1 = .ok 3 := rfl
  exact ⟨e1, (h.1 3 e1).2⟩

/-- C3: after `newSegment` over existing files whose index holds `K`
complete, well-formed entries (the stored relative offset of the last
entry is `K - 1`, as every entry written by `Append` satisfies),
`nextOffset = baseOffset + K`; in particular `K = 0` (an empty, freshly
created index) gives `nextOffset = baseOffset`. -/
theorem newSegment_nextOffset (storeFile indexFile : List Nat) (b K : Nat) (c : Config)
    (hlen : indexFile.length = 12 * K)
    (hcap : 12 * K ≤ c.MaxIndexBytes)
    (hK : K ≤ 2 ^ 32) (hb : b + K < 2 ^ 64)
    (hlast : 1 ≤ K → dec4 (readAt indexFile (12 * (K - 1)) 4) = K - 1) :
    (newSegment storeFile indexFile b c).nextOffset = b + K := by
  by_cases hK0 : K = 0
  · subst hK0
    have hnil : indexFile = [] := List.length_eq_zero.mp (by omega)
    subst hnil
    rfl
  · have h1 : 1 ≤ K := by omega
    have hile : indexFile.length ≤ c.MaxIndexBytes := by omega
    have htake : indexFile.take c.MaxIndexBytes = indexFile := List.take_of_length_le hile
    have hsize : (newIndex indexFile c).size = 12 * K := by
      unfold newIndex
      exact hlen
    have hout : indexOut (newIndex indexFile c) (-1) = K - 1 := by
      rw [indexOut_neg_one (newIndex indexFile c) K hsize h1 (by omega)]
      omega
    have hread : (newIndex indexFile c).Read (-1)
        = .ok (dec4 (readAt indexFile ((K - 1) * 12) 4),
               dec8 (readAt (newIndex indexFile c).mmap ((K - 1) * 12 + 4) 8)) := by
      unfold Index.Read
      rw [hout, hsize]
      rw [if_neg (by omega), if_neg (by omega)]
      have hmm : (newIndex indexFile c).mmap
          = indexFile ++ List.replicate (c.MaxIndexBytes - indexFile.length) 0 := by
        unfold newIndex
        rw [htake]
      rw [hmm]
      rw [readAt_append indexFile _ ((K - 1) * 12) 4 (by omega)]
    show (match (newIndex indexFile c).Read (-1) with
          | .error _ => b
          | .ok r => (b + r.1 + 1) % 2 ^ 64) = b + K
    rw [hread]
    show (b + dec4 (readAt indexFile ((K - 1) * 12) 4) + 1) % 2 ^ 64 = b + K
    have h1214 : (K - 1) * 12 = 12 * (K - 1) := by omega
    rw [h1214, hlast h1]
    omega

theorem newSegment_nextOffset_witness :
    (newSegment [] (enc4 0 ++ enc8 0) 40 ⟨1024, 24, 0⟩).nextOffset = 40 + 1 :=
  newSegment_nextOffset [] (enc4 0 ++ enc8 0) 40 1 ⟨1024, 24, 0⟩
    (by decide) (by decide) (by decide) (by decide) (fun _ => by decide)

/-- Reads of already-written offsets survive an append: extending the
store file and writing one fresh index entry at position `size` leaves
every earlier record readable with the same result. -/
theorem segment_read_stable (t t' : Segment) (b K i : Nat) (ext d : List Nat) (r : Record)
    (hbase : t.baseOffset = b)
    (hisize : t.index.size = 12 * K)
    (hcapd : t.index.size + d.length ≤ t.index.mmap.length)
    (hb : b + K < 2 ^ 64) (hK32 : K ≤ 2 ^ 32)
    (hi : i < K)
    (hb' : t'.baseOffset = b)
    (hbytes : t'.store.bytes = t.store.bytes ++ ext)
    (himap : t'.index.mmap = writeAt t.index.mmap t.index.size d)
    (hisz' : t'.index.size = t.index.size + 12)
    (hread : t.Read (b + i) = .ok r) :
    t'.Read (b + i) = .ok r := by
  have harg : ∀ u : Segment, u.baseOffset = b →
      toInt64 (sub64 (b + i) u.baseOffset) = (i : Int) := by
    intro u hu
    rw [hu]
    unfold sub64 toInt64
    have h1 : b % 2 ^ 64 = b := by omega
    rw [h1]
    have h2 : (b + i + 2 ^ 64 - b) % 2 ^ 64 = i := by omega
    rw [h2]
    rw [if_pos (by omega)]
  unfold Segment.Read at hread ⊢
  rw [harg t hbase] at hread
  rw [harg t' hb']
  cases hIR : t.index.Read (i : Int) with
  | error e =>
    rw [hIR] at hread
    exact absurd hread (by simp)
  | ok rr =>
    rw [hIR] at hread
    have hread2 : (match t.store.Read rr.2 with
      | Except.error e => (Except.error e : Except Err Record)
      | Except.ok pb => pUnmarshal pb) = Except.ok r := hread
    have hIR2 : t'.index.Read (i : Int) = .ok rr := by
      unfold Index.Read at hIR ⊢
      rw [indexOut_nonneg t.index i] at hIR
      rw [indexOut_nonneg t'.index i]
      have hilt : i % 2 ^ 32 = i := by omega
      rw [hilt] at hIR ⊢
      rw [hisize] at hIR
      rw [if_neg (by omega), if_neg (by omega)] at hIR
      rw [hisz', hisize]
      rw [if_neg (by omega), if_neg (by omega)]
      rw [himap]
      rw [readAt_writeAt_before t.index.mmap d (i * 12) 4 t.index.size
            (by rw [hisize]; omega) (by omega)]
      rw [readAt_writeAt_before t.index.mmap d (i * 12 + 4) 8 t.index.size
            (by rw [hisize]; omega) (by omega)]
      exact hIR
    rw [hIR2]
    show (match t'.store.Read rr.2 with
      | Except.error e => (Except.error e : Except Err Record)
      | Except.ok pb => pUnmarshal pb) = Except.ok r
    cases hSR : t.store.Read rr.2 with
    | error e =>
      rw [hSR] at hread2
      exact absurd hread2 (by simp)
    | ok pb =>
      rw [hSR] at hread2
      unfold Store.Read at hSR
      by_cases hc1 : t.store.bytes.length < rr.2 + 8
      · rw [if_pos hc1] at hSR
        exact absurd hSR (by simp)
      · rw [if_neg hc1] at hSR
        by_cases hc2 : t.store.bytes.length < rr.2 + 8 + dec8 (readAt t.store.bytes rr.2 8)
        · rw [if_pos hc2] at hSR
          exact absurd hSR (by simp)
        · rw [if_neg hc2] at hSR
          have hSR2 : t'.store.Read rr.2 = .ok pb := by
            unfold Store.Read
            rw [hbytes]
            rw [readAt_append t.store.bytes ext rr.2 8 (by omega)]
            rw [if_neg (by simp only [List.length_append]; omega)]
            rw [if_neg (by simp only [List.length_append]; omega)]
            rw [readAt_append t.store.bytes ext (rr.2 + 8)
                  (dec8 (readAt t.store.bytes rr.2 8)) (by omega)]
            exact hSR
          rw [hSR2]
          exact hread2

/-- The record just appended is read back intact: the fresh index entry
decodes to the record's start position, and the store bytes there are
exactly the length-prefixed marshalled record. -/
theorem segment_read_new (t t' : Segment) (b K : Nat) (pay : List Nat)
    (hisize : t.index.size = 12 * K)
    (hcapd : t.index.size + 12 ≤ t.index.mmap.length)
    (hssize : t.store.size = t.store.bytes.length)
    (hb : b + K + 1 < 2 ^ 64) (hK32 : K + 1 ≤ 2 ^ 32)
    (hst64 : t.store.size + 8 + (pMarshal ⟨pay, b + K⟩).length < 2 ^ 64)
    (hb' : t'.baseOffset = b)
    (hbytes : t'.store.bytes
      = t.store.bytes ++ enc8 (pMarshal ⟨pay, b + K⟩).length ++ pMarshal ⟨pay, b + K⟩)
    (himap : t'.index.mmap
      = writeAt t.index.mmap t.index.size (enc4 K ++ enc8 t.store.size))
    (hisz' : t'.index.size = t.index.size + 12) :
    t'.Read (b + K) = .ok ⟨pay, b + K⟩ := by
  have harg : toInt64 (sub64 (b + K) t'.baseOffset) = (K : Int) := by
    rw [hb']
    unfold sub64 toInt64
    have h1 : b % 2 ^ 64 = b := by omega
    rw [h1]
    have h2 : (b + K + 2 ^ 64 - b) % 2 ^ 64 = K := by omega
    rw [h2]
    rw [if_pos (by omega)]
  unfold Segment.Read
  rw [harg]
  have hIR : t'.index.Read (K : Int) = .ok (K, t.store.size) := by
    unfold Index.Read
    rw [indexOut_nonneg t'.index K]
    have hilt : K % 2 ^ 32 = K := by omega
    rw [hilt]
    rw [hisz', hisize]
    rw [if_neg (by omega), if_neg (by omega)]
    rw [himap]
    have e0 : K * 12 = t.index.size := by rw [hisize]; omega
    rw [e0]
    have hwb : t.index.size + (enc4 K ++ enc8 t.store.size).length ≤ t.index.mmap.length := by
      simp only [List.length_append, length_enc4, length_enc8]
      omega
    have hr1 := readAt_writeAt_first t.index.mmap (enc4 K) (enc8 t.store.size) t.index.size hwb
    have hr2 := readAt_writeAt_second t.index.mmap (enc4 K) (enc8 t.store.size) t.index.size hwb
    rw [length_enc4] at hr1 hr2
    rw [length_enc8] at hr2
    rw [hr1, hr2]
    rw [dec4_enc4, dec8_enc8]
    have hK32' : K % 2 ^ 32 = K := by omega
    have hs64 : t.store.size % 2 ^ 64 = t.store.size := by omega
    rw [hK32', hs64]
  rw [hIR]
  show (match t'.store.Read t.store.size with
    | Except.error e => (Except.error e : Except Err Record)
    | Except.ok q => pUnmarshal q) = Except.ok ⟨pay, b + K⟩
  have hSR : t'.store.Read t.store.size = .ok (pMarshal ⟨pay, b + K⟩) := by
    unfold Store.Read
    rw [hbytes, List.append_assoc, hssize]
    rw [readAt_append_start t.store.bytes _ 8]
    have ht8 : (enc8 (pMarshal ⟨pay, b + K⟩).length ++ pMarshal ⟨pay, b + K⟩).take 8
        = enc8 (pMarshal ⟨pay, b + K⟩).length := by
      have h := List.take_left (enc8 (pMarshal ⟨pay, b + K⟩).length) (pMarshal ⟨pay, b + K⟩)
      rw [length_enc8] at h
      exact h
    rw [ht8, dec8_enc8]
    have hml : (pMarshal ⟨pay, b + K⟩).length % 2 ^ 64 = (pMarshal ⟨pay, b + K⟩).length := by
      omega
    rw [hml]
    have hlb : (t.store.bytes ++ (enc8 (pMarshal ⟨pay, b + K⟩).length
        ++ pMarshal ⟨pay, b + K⟩)).length
        = t.store.bytes.length + (8 + (pMarshal ⟨pay, b + K⟩).length) := by
      simp only [List.length_append, length_enc8]
    rw [if_neg (by rw [hlb]; omega), if_neg (by rw [hlb]; omega)]
    have hr8 := readAt_append_right t.store.bytes
      (enc8 (pMarshal ⟨pay, b + K⟩).length ++ pMarshal ⟨pay, b + K⟩) 8
      (pMarshal ⟨pay, b + K⟩).length
    rw [hr8]
    have hd8 : (enc8 (pMarshal ⟨pay, b + K⟩).length ++ pMarshal ⟨pay, b + K⟩).drop 8
        = pMarshal ⟨pay, b + K⟩ := by
      have h := List.drop_left (enc8 (pMarshal ⟨pay, b + K⟩).length) (pMarshal ⟨pay, b + K⟩)
      rw [length_enc8] at h
      exact h
    have hrd : readAt (enc8 (pMarshal ⟨pay, b + K⟩).length ++ pMarshal ⟨pay, b + K⟩) 8
        (pMarshal ⟨pay, b + K⟩).length = pMarshal ⟨pay, b + K⟩ := by
      unfold readAt
      rw [hd8, List.take_length]
    rw [hrd]
  rw [hSR]
  exact pUnmarshal_pMarshal pay (b + K) (by omega)

/-- One append on a reachable state: it succeeds, returns the next
offset, and re-establishes the invariant with the payload recorded. -/
theorem segment_append_step (s : Segment) (b : Nat) (c : Config)
    (qs : List (List Nat)) (p : List Nat)
    (inv : SegInv s b c qs)
    (hcap : 12 * qs.length + 12 ≤ c.MaxIndexBytes)
    (hK : qs.length + 1 ≤ 2 ^ 32)
    (hb : b + qs.length + 1 < 2 ^ 64)
    (hsz : framesLen b qs + (8 + (pMarshal ⟨p, b + qs.length⟩).length) < 2 ^ 64) :
    (s.Append ⟨p, 0⟩).1 = .ok (b + qs.length) ∧
    SegInv (s.Append ⟨p, 0⟩).2 b c (qs ++ [p]) := by
  obtain ⟨hbase, hcfg, hnext, hisize, hilen, hssize, hsblen, hreads⟩ := inv
  have hrel : sub64 s.nextOffset s.baseOffset % 2 ^ 32 = qs.length := by
    rw [hnext, hbase]
    unfold sub64
    have h1 : b % 2 ^ 64 = b := by omega
    rw [h1]
    have h2 : b + qs.length + 2 ^ 64 - b = qs.length + 2 ^ 64 := by omega
    rw [h2]
    have h3 : (qs.length + 2 ^ 64) % 2 ^ 64 = qs.length := by omega
    rw [h3]
    omega
  have hwc : ¬ (s.index.mmap.length < s.index.size + 12) := by
    rw [hilen, hisize]
    omega
  have happ : s.Append ⟨p, 0⟩
      = (.ok (b + qs.length),
         { s with
             store := { bytes := s.store.bytes
                          ++ enc8 (pMarshal ⟨p, b + qs.length⟩).length
                          ++ pMarshal ⟨p, b + qs.length⟩,
                        size := (s.store.size
                          + ((pMarshal ⟨p, b + qs.length⟩).length + 8) % 2 ^ 64) % 2 ^ 64 },
             index := { mmap := writeAt s.index.mmap s.index.size
                          (enc4 qs.length ++ enc8 s.store.size),
                        size := (s.index.size + 12) % 2 ^ 64 },
             nextOffset := (s.nextOffset + 1) % 2 ^ 64 }) := by
    unfold Segment.Append Index.Write
    rw [if_neg hwc, hrel, hnext]
    rfl
  have hfl : s.store.size = framesLen b qs := hssize.trans hsblen
  have hc1 : (s.Append ⟨p, 0⟩).2.baseOffset = b := by
    rw [happ]
    exact hbase
  have hc2 : (s.Append ⟨p, 0⟩).2.config = c := by
    rw [happ]
    exact hcfg
  have hc3 : (s.Append ⟨p, 0⟩).2.store.bytes
      = s.store.bytes ++ enc8 (pMarshal ⟨p, b + qs.length⟩).length
        ++ pMarshal ⟨p, b + qs.length⟩ := by
    rw [happ]
  have hc4 : (s.Append ⟨p, 0⟩).2.store.size
      = (s.store.size + ((pMarshal ⟨p, b + qs.length⟩).length + 8) % 2 ^ 64) % 2 ^ 64 := by
    rw [happ]
  have hc5 : (s.Append ⟨p, 0⟩).2.index.mmap
      = writeAt s.index.mmap s.index.size (enc4 qs.length ++ enc8 s.store.size) := by
    rw [happ]
  have hc6 : (s.Append ⟨p, 0⟩).2.index.size = s.index.size + 12 := by
    rw [happ]
    show (s.index.size + 12) % 2 ^ 64 = s.index.size + 12
    rw [hisize]
    omega
  have hc7 : (s.Append ⟨p, 0⟩).2.nextOffset = (s.nextOffset + 1) % 2 ^ 64 := by
    rw [happ]
  have hlen1 : (qs ++ [p]).length = qs.length + 1 := by simp
  have hfl1 : framesLen (b + qs.length) [p]
      = 8 + (pMarshal ⟨p, b + qs.length⟩).length := by
    show (8 + (pMarshal ⟨p, b + qs.length⟩).length) + framesLen (b + qs.length + 1) [] = _
    show (8 + (pMarshal ⟨p, b + qs.length⟩).length) + 0 = _
    omega
  have hflapp : framesLen b (qs ++ [p])
      = framesLen b qs + (8 + (pMarshal ⟨p, b + qs.length⟩).length) := by
    rw [framesLen_append b qs [p], hfl1]
  refine ⟨by rw [happ], ?_⟩
  refine ⟨hc1, hc2, ?_, ?_, ?_, ?_, ?_, ?_⟩
  · rw [hc7, hnext, hlen1]
    have hgoal : (b + qs.length + 1) % 2 ^ 64 = b + (qs.length + 1) := by omega
    exact hgoal
  · rw [hc6, hisize, hlen1]
    omega
  · rw [hc5, writeAt_length]
    · exact hilen
    · rw [hisize, hilen]
      simp only [List.length_append, length_enc4, length_enc8]
      omega
  · rw [hc4, hc3]
    simp only [List.length_append, length_enc8]
    rw [hfl, hsblen]
    omega
  · rw [hc3, hflapp]
    simp only [List.length_append, length_enc8]
    rw [hsblen]
    omega
  · intro i hi
    rw [hlen1] at hi
    by_cases hiK : i < qs.length
    · have hgd : (qs ++ [p]).getD i [] = qs.getD i [] :=
        List.getD_append qs [p] [] i hiK
      rw [hgd]
      exact segment_read_stable s (s.Append ⟨p, 0⟩).2 b qs.length i
        (enc8 (pMarshal ⟨p, b + qs.length⟩).length ++ pMarshal ⟨p, b + qs.length⟩)
        (enc4 qs.length ++ enc8 s.store.size) (⟨qs.getD i [], b + i⟩)
        hbase hisize
        (by rw [hisize, hilen]; simp only [List.length_append, length_enc4, length_enc8]; omega)
        (by omega) (by omega) hiK hc1
        (by rw [hc3, List.append_assoc])
        hc5 hc6 (hreads i hiK)
    · have hieq : i = qs.length := by omega
      subst hieq
      have hgd : (qs ++ [p]).getD qs.length [] = p := by
        rw [List.getD_append_right qs [p] [] qs.length (by omega)]
        have e : qs.length - qs.length = 0 := by omega
        rw [e]
        rfl
      rw [hgd]
      exact segment_read_new s (s.Append ⟨p, 0⟩).2 b qs.length p
        hisize (by rw [hisize, hilen]; omega) hssize hb hK
        (by omega) hc1 hc3 hc5 hc6

/-- Appending a batch of payloads to a reachable state preserves the
invariant and returns the consecutive offsets. -/
theorem segment_appendAll_inv (rest : List (List Nat)) (qs : List (List Nat))
    (s : Segment) (b : Nat) (c : Config)
    (inv : SegInv s b c qs)
    (hcap : 12 * (qs ++ rest).length ≤ c.MaxIndexBytes)
    (hK : (qs ++ rest).length ≤ 2 ^ 32)
    (hb : b + (qs ++ rest).length < 2 ^ 64)
    (hsz : framesLen b (qs ++ rest) < 2 ^ 64) :
    SegInv (s.AppendAll rest).1 b c (qs ++ rest) ∧
    (s.AppendAll rest).2
      = (List.range rest.length).map (fun j => Except.ok (b + qs.length + j)) := by
  induction rest generalizing qs s with
  | nil =>
    refine ⟨?_, rfl⟩
    rw [List.append_nil]
    exact inv
  | cons p rest ih =>
    have hlen : (qs ++ p :: rest).length = qs.length + rest.length + 1 := by
      simp
      omega
    have hstep := segment_append_step s b c qs p inv
      (by rw [hlen] at hcap; omega)
      (by rw [hlen] at hK; omega)
      (by rw [hlen] at hb; omega)
      (by
        have hfa := framesLen_append b qs (p :: rest)
        rw [hfa] at hsz
        have hcons : framesLen (b + qs.length) (p :: rest)
            = (8 + (pMarshal ⟨p, b + qs.length⟩).length)
              + framesLen (b + qs.length + 1) rest := rfl
        rw [hcons] at hsz
        omega)
    have hassoc : (qs ++ [p]) ++ rest = qs ++ p :: rest := by simp
    have hih := ih (qs ++ [p]) (s.Append ⟨p, 0⟩).2 hstep.2
      (by rw [hassoc]; exact hcap) (by rw [hassoc]; exact hK)
      (by rw [hassoc]; exact hb) (by rw [hassoc]; exact hsz)
    constructor
    · have h1 := hih.1
      rw [hassoc] at h1
      exact h1
    · show (s.Append ⟨p, 0⟩).1 :: ((s.Append ⟨p, 0⟩).2.AppendAll rest).2
        = (List.range (rest.length + 1)).map (fun j => Except.ok (b + qs.length + j))
      rw [hstep.1, hih.2]
      rw [List.range_succ_eq_map]
      simp only [List.map_cons, List.map_map]
      congr 1
      apply List.map_congr_left
      intro j hj
      simp only [Function.comp_apply, List.length_append, List.length_cons,
        List.length_nil, Except.ok.injEq]
      omega

/-- C1: appending a sequence of `N` records to a fresh segment (with
sufficient index capacity and no offset or size overflow) returns the
consecutive offsets `b .. b+N-1`, and reading each returned offset
gives back a record carrying the original payload unchanged. -/
theorem segment_roundtrip (b : Nat) (c : Config) (ps : List (List Nat))
    (hcap : 12 * ps.length ≤ c.MaxIndexBytes)
    (hN : ps.length ≤ 2 ^ 32)
    (hb : b + ps.length < 2 ^ 64)
    (hsz : framesLen b ps < 2 ^ 64) :
    ((newSegment [] [] b c).AppendAll ps).2
      = (List.range ps.length).map (fun j => Except.ok (b + j)) ∧
    ∀ i : Nat, i < ps.length →
      ((newSegment [] [] b c).AppendAll ps).1.Read (b + i)
        = .ok ⟨ps.getD i [], b + i⟩ := by
  have h := segment_appendAll_inv ps [] (newSegment [] [] b c) b c (segInv_fresh b c)
    (by simpa using hcap) (by simpa using hN) (by simpa using hb) (by simpa using hsz)
  constructor
  · have h2 := h.2
    simpa using h2
  · intro i hi
    have hr := h.1.reads i (by simpa using hi)
    simpa using hr

theorem segment_roundtrip_witness :
    ((newSegment [] [] 5 ⟨1024, 24, 0⟩).AppendAll [[7], [8, 9]]).2
      = (List.range 2).map (fun j => Except.ok (5 + j)) ∧
    ((newSegment [] [] 5 ⟨1024, 24, 0⟩).AppendAll [[7], [8, 9]]).1.Read (5 + 1)
      = .ok ⟨[[7], [8, 9]].getD 1 [], 5 + 1⟩ := by
  have h := segment_roundtrip 5 ⟨1024, 24, 0⟩ [[7], [8, 9]]
    (by decide) (by decide) (by decide) (by decide)
  exact ⟨h.1, h.2 1 (by decide)⟩

/-- C9: on a segment holding at least one record, reading the offset
`baseOffset - 1` (which the `uint64` subtraction wraps to `2^64 - 1`,
cast to the `int64` sentinel `-1`) does not fail: it returns the
segment's last record. -/
theorem segment_read_baseOffset_minus_one (b : Nat) (c : Config) (ps : List (List Nat))
    (hne : ps ≠ [])
    (hcap : 12 * ps.length ≤ c.MaxIndexBytes)
    (hN : ps.length ≤ 2 ^ 32)
    (hb : b + ps.length < 2 ^ 64)
    (hsz : framesLen b ps < 2 ^ 64) :
    ((newSegment [] [] b c).AppendAll ps).1.Read ((b + 2 ^ 64 - 1) % 2 ^ 64)
      = .ok ⟨ps.getD (ps.length - 1) [], b + (ps.length - 1)⟩ := by
  have h := segment_appendAll_inv ps [] (newSegment [] [] b c) b c (segInv_fresh b c)
    (by simpa using hcap) (by simpa using hN) (by simpa using hb) (by simpa using hsz)
  have inv := h.1
  rw [List.nil_append] at inv
  obtain ⟨hbase, hcfg, hnext, hisize, hilen, hssize, hsblen, hreads⟩ := inv
  have hN1 : 1 ≤ ps.length := List.length_pos.mpr hne
  have hrd := hreads (ps.length - 1) (by omega)
  have hargA : toInt64 (sub64 ((b + 2 ^ 64 - 1) % 2 ^ 64)
      ((newSegment [] [] b c).AppendAll ps).1.baseOffset) = -1 := by
    rw [hbase]
    unfold sub64 toInt64
    have h1 : b % 2 ^ 64 = b := by omega
    rw [h1]
    have h2 : ((b + 2 ^ 64 - 1) % 2 ^ 64 + 2 ^ 64 - b) % 2 ^ 64 = 2 ^ 64 - 1 := by omega
    rw [h2]
    rw [if_neg (by omega)]
    omega
  have hargB : toInt64 (sub64 (b + (ps.length - 1))
      ((newSegment [] [] b c).AppendAll ps).1.baseOffset) = ((ps.length - 1 : Nat) : Int) := by
    rw [hbase]
    unfold sub64 toInt64
    have h1 : b % 2 ^ 64 = b := by omega
    rw [h1]
    have h2 : (b + (ps.length - 1) + 2 ^ 64 - b) % 2 ^ 64 = ps.length - 1 := by omega
    rw [h2]
    rw [if_pos (by omega)]
  unfold Segment.Read at hrd ⊢
  rw [hargB] at hrd
  rw [hargA]
  rw [index_read_neg_one_eq ((newSegment [] [] b c).AppendAll ps).1.index ps.length hisize hN1
      (by rw [hisize]; omega)]
  exact hrd

theorem segment_read_baseOffset_minus_one_witness :
    ((newSegment [] [] 5 ⟨1024, 24, 0⟩).AppendAll [[7], [8, 9]]).1.Read
        ((5 + 2 ^ 64 - 1) % 2 ^ 64)
      = .ok ⟨[[7], [8, 9]].getD (2 - 1) [], 5 + (2 - 1)⟩ :=
  segment_read_baseOffset_minus_one 5 ⟨1024, 24, 0⟩ [[7], [8, 9]]
    (by decide) (by decide) (by decide) (by decide) (by decide)

end ProgLog
